import Mathlib

/-!
Verification of the HTML extraction engine and batch orchestration of the
`my-scraper` repository (`api/scrape_hub.js`).  The definitions below are a
shallow embedding of that source file: parsed HTML documents become a tree
type `Node`, the `createTreeWalker` text walk becomes a document-order list
of text nodes, and each extractor mirrors the corresponding JS function
statement by statement.  Platform builtins that the source calls
(`new URL`, `fetch`, `Date.parse`) are modelled by explicit functions or
oracle parameters, as noted on each definition.
-/

set_option maxRecDepth 10000

/-- A parsed HTML node: an element with tag name, attributes and children,
or a text node.  Models the JSDOM documents consumed by the extractors. -/
inductive Node where
  | text (s : String)
  | elem (tag : String) (attrs : List (String × String)) (children : List Node)
deriving Repr, Inhabited

mutual
/-- All text-node values below a node, in document (depth-first) order.
Models iterating `document.createTreeWalker(root, SHOW_TEXT)`. -/
def textNodes : Node → List String
  | Node.text s => [s]
  | Node.elem _ _ cs => textNodesL cs
def textNodesL : List Node → List String
  | [] => []
  | c :: cs => textNodes c ++ textNodesL cs
end

mutual
/-- Text-node values paired with the chain of enclosing elements
(innermost first).  The head of the chain is the node's `parentElement`. -/
def textsAnc : List Node → Node → List (String × List Node)
  | anc, Node.text s => [(s, anc)]
  | anc, Node.elem t a cs => textsAncL (Node.elem t a cs :: anc) cs
def textsAncL : List Node → List Node → List (String × List Node)
  | _, [] => []
  | anc, c :: cs => textsAnc anc c ++ textsAncL anc cs
end

mutual
/-- A node together with all its descendant elements, in document order. -/
def subElemsSelf : Node → List Node
  | Node.text _ => []
  | Node.elem t a cs => Node.elem t a cs :: subElemsSelfL cs
def subElemsSelfL : List Node → List Node
  | [] => []
  | c :: cs => subElemsSelf c ++ subElemsSelfL cs
end

/-- The descendant elements of a node (excluding the node itself), in
document order.  Models `el.querySelectorAll(tag)` before filtering. -/
def descElems : Node → List Node
  | Node.text _ => []
  | Node.elem _ _ cs => subElemsSelfL cs

mutual
/-- Concatenation of all text below a node.  Models `node.textContent`. -/
def textContent : Node → String
  | Node.text s => s
  | Node.elem _ _ cs => textContentL cs
def textContentL : List Node → String
  | [] => ""
  | c :: cs => textContent c ++ textContentL cs
end

def tagOf : Node → String
  | Node.text _ => ""
  | Node.elem t _ _ => t

/-- Models `el.getAttribute(name)` (first matching attribute, else null). -/
def getAttr (n : Node) (name : String) : Option String :=
  match n with
  | Node.text _ => none
  | Node.elem _ attrs _ => (attrs.find? (fun p => p.1 == name)).map (fun p => p.2)

/-- Boolean "`pat` begins `l`" on character lists. -/
def startsList : List Char → List Char → Bool
  | [], _ => true
  | _ :: _, [] => false
  | p :: ps, c :: cs => p == c && startsList ps cs

/-- Models the JS `s.startsWith(pat)` string method. -/
def strStartsWith (s pat : String) : Bool :=
  startsList pat.data s.data

/-- Boolean "`pat` occurs inside `l`" on character lists. -/
def containsList (pat : List Char) : List Char → Bool
  | [] => startsList pat []
  | c :: cs => startsList pat (c :: cs) || containsList pat cs

/-- Models the JS `s.includes(pat)` string method. -/
def containsSub (s pat : String) : Bool :=
  containsList pat.data s.data

/-- Replace every maximal run of whitespace by a single space; the Boolean
argument records whether the previous character was whitespace. -/
def collapseWsAux : List Char → Bool → List Char
  | [], _ => []
  | c :: cs, prevWs =>
    if c.isWhitespace then
      if prevWs then collapseWsAux cs true else ' ' :: collapseWsAux cs true
    else c :: collapseWsAux cs false

/-- Models the JS `s.replace(/\s+/g, " ")` regex replacement. -/
def collapseWs (s : String) : String :=
  String.mk (collapseWsAux s.data false)

/-- Models the JS `s.trim()` string method: strip leading and trailing
whitespace. -/
def jsTrim (s : String) : String :=
  String.mk
    (((s.data.dropWhile Char.isWhitespace).reverse.dropWhile Char.isWhitespace).reverse)

/-- Models the JS `parseInt(s, 10)` builtin on its decimal fragment:
`none` stands for `NaN`. -/
def jsParseInt (s : String) : Option Int :=
  let l := s.data.dropWhile Char.isWhitespace
  let signDigits : Bool × List Char :=
    match l with
    | '-' :: r => (true, r)
    | '+' :: r => (false, r)
    | r => (false, r)
  let digits := signDigits.2.takeWhile Char.isDigit
  if digits.isEmpty then none
  else
    let n : Nat := digits.foldl (fun acc c => acc * 10 + (c.toNat - 48)) 0
    some (if signDigits.1 then -(n : Int) else (n : Int))

/-- The site base URL constant `BASE_URL` from `api/scrape_hub.js`. -/
def BASE_URL : String := "https://hub.pointfive.co"

/-- Pathname extracted from a URL string by the parser model. -/
structure JsUrl where
  pathname : String
deriving Repr, DecidableEq

/-- Models the WHATWG `new URL(url)` builtin on the URL shapes this scraper
meets: it succeeds on `scheme://host[/path][?query][#fragment]` inputs with
an alphabetic scheme and a non-empty host, yielding the pathname, and fails
(the constructor would throw) otherwise. -/
def parseUrl (url : String) : Option JsUrl :=
  let l := url.data
  let scheme := l.takeWhile (fun c => c != ':')
  if scheme.isEmpty || !scheme.all Char.isAlpha then none
  else
    match l.drop scheme.length with
    | ':' :: '/' :: '/' :: r =>
      let host := r.takeWhile (fun c => c != '/' && c != '?' && c != '#')
      if host.isEmpty then none
      else
        let afterHost := r.drop host.length
        let path := afterHost.takeWhile (fun c => c != '?' && c != '#')
        some { pathname := if path.isEmpty then "/" else String.mk path }
    | _ => none

/-- Does `href` begin with an explicit URL scheme? -/
def hasScheme (href : String) : Bool :=
  let scheme := href.data.takeWhile (fun c => c != ':')
  !scheme.isEmpty && scheme.all Char.isAlpha && decide (scheme.length < href.data.length)

/-- Models the WHATWG `new URL(href, BASE_URL).toString()` builtin for the
href shapes exercised here: scheme-qualified references are kept,
protocol-relative ones adopt the base scheme, and path references are
resolved against `BASE_URL` (dot-segment normalization is not modelled). -/
def jsUrlResolve (href : String) : String :=
  if hasScheme href then href
  else if strStartsWith href "//" then "https:" ++ href
  else if strStartsWith href "/" then BASE_URL ++ href
  else BASE_URL ++ "/" ++ href

/-- JS `str.split(sep)` on character lists for a single-character separator:
never returns the empty list. -/
def splitChar (c : Char) : List Char → List (List Char)
  | [] => [[]]
  | x :: xs =>
    let r := splitChar c xs
    if x == c then [] :: r
    else
      match r with
      | [] => [[x]]
      | h :: t => (x :: h) :: t

/-- Models the JS `pathname.replace(/\/+$/, "")` trailing-slash strip. -/
def stripSlashes (l : List Char) : List Char :=
  (l.reverse.dropWhile (fun c => c == '/')).reverse

/-- `slugFromUrl` from `api/scrape_hub.js`: parse the URL, strip trailing
slashes from its path, split on `/` and keep the last part; if URL parsing
fails, fall back to the raw input string. -/
def slugFromUrl (url : String) : String :=
  match parseUrl url with
  | some u =>
    let parts := splitChar '/' (stripSlashes u.pathname.data)
    String.mk (parts.getLastD [])
  | none => url

/-- The non-empty path segments of a parsed URL (the spec's notion of
"path segment" for the slug claims). -/
def pathSegments (u : JsUrl) : List (List Char) :=
  (splitChar '/' u.pathname.data).filter (fun p => !p.isEmpty)

/-- The closed heading registry `SECTION_TITLES` from `api/scrape_hub.js`. -/
def SECTION_TITLES : List String :=
  ["Explanation", "Relevant Billing Model", "Detection", "Remediation",
   "Relevant Documentation"]

/-- The scan loop of `findFieldValue`: walk the trimmed text values, skip
empty ones, and once the label was seen return the next non-empty value. -/
def fieldLoop (labelText : String) : List String → Bool → Option String
  | [], _ => none
  | s :: rest, seenLabel =>
    let value := jsTrim s
    if value = "" then fieldLoop labelText rest seenLabel
    else if seenLabel then some value
    else if value = labelText then fieldLoop labelText rest true
    else fieldLoop labelText rest false

/-- `findFieldValue(document, labelText)` from `api/scrape_hub.js`. -/
def findFieldValue (doc : Node) (labelText : String) : Option String :=
  fieldLoop labelText (textNodes doc) false

/-- The stop test shared by the section walkers:
`SECTION_TITLES.includes(value) && value !== headingText`. -/
def isStopTitle (headingText v : String) : Bool :=
  SECTION_TITLES.contains v && v != headingText

/-- The scan loop of `extractSectionParagraph`: before the heading, look for
it; inside the section, stop at a different registry title, otherwise
accumulate the value. -/
def paragraphLoop (headingText : String) :
    List String → Bool → List String → List String
  | [], _, collected => collected
  | s :: rest, inSection, collected =>
    let value := jsTrim s
    if value = "" then paragraphLoop headingText rest inSection collected
    else if inSection = false then
      if value = headingText then paragraphLoop headingText rest true collected
      else paragraphLoop headingText rest false collected
    else if isStopTitle headingText value then collected
    else paragraphLoop headingText rest inSection (collected ++ [value])

/-- `extractSectionParagraph(document, headingText)` from
`api/scrape_hub.js`: `null` when nothing was collected, otherwise the
fragments joined by one space with whitespace runs collapsed and trimmed. -/
def extractSectionParagraph (doc : Node) (headingText : String) : Option String :=
  let collected := paragraphLoop headingText (textNodes doc) false []
  if collected.isEmpty then none
  else some (jsTrim (collapseWs (String.intercalate " " collected)))

def isUl (n : Node) : Bool := tagOf n == "ul"

def isLi (n : Node) : Bool := tagOf n == "li"

/-- The first loop of `extractSectionList`: find the first non-empty trimmed
text node equal to the heading and return its ancestor-element chain. -/
def headingSearch (headingText : String) :
    List (String × List Node) → Option (List Node)
  | [] => none
  | (s, anc) :: rest =>
    let value := jsTrim s
    if value = "" then headingSearch headingText rest
    else if value = headingText then some anc
    else headingSearch headingText rest

/-- The `while (container && !container.querySelector('ul'))` climb of
`extractSectionList`: first enclosing element with a `ul` descendant. -/
def climb : List Node → Option Node
  | [] => none
  | c :: rest => if (descElems c).any isUl then some c else climb rest

/-- The `ul.querySelectorAll('li')` harvesting loop of `extractSectionList`:
trimmed text content of the `li` descendants, dropping empty ones. -/
def liTexts (ul : Node) : List String :=
  ((descElems ul).filter isLi).foldl
    (fun items li =>
      let t := jsTrim (textContent li)
      if t = "" then items else items ++ [t]) []

/-- `extractSectionList(document, headingText)` from `api/scrape_hub.js`. -/
def extractSectionList (doc : Node) (headingText : String) : List String :=
  match headingSearch headingText (textsAnc [] doc) with
  | none => []
  | some anc =>
    match climb anc with
    | none => []
    | some container =>
      match (descElems container).find? isUl with
      | none => []
      | some ul => liTexts ul

def childrenOf : Node → List Node
  | Node.text _ => []
  | Node.elem _ _ cs => cs

/-- Follows the words of the list-extractor claim (C5): identical to
`extractSectionList` except that it reads the item *children* of the first
list element, not all of its item descendants. -/
def extractSectionListClaim (doc : Node) (headingText : String) : List String :=
  match headingSearch headingText (textsAnc [] doc) with
  | none => []
  | some anc =>
    match climb anc with
    | none => []
    | some container =>
      match (descElems container).find? isUl with
      | none => []
      | some ul =>
        (((childrenOf ul).filter isLi).map
          (fun li => jsTrim (textContent li))).filter (fun t => t != "")

/-- A collected documentation link: `{title, url}`. -/
structure LinkEntry where
  title : Option String
  url : String
deriving Repr, DecidableEq

def isAnchorWithHref (n : Node) : Bool :=
  tagOf n == "a" && (getAttr n "href").isSome

/-- The anchors considered by `parentEl.querySelectorAll("a[href]")`. -/
def anchorsIn (el : Node) : List Node :=
  (descElems el).filter isAnchorWithHref

/-- The per-anchor body of `extractDocumentationLinks`: skip an empty href,
keep an href that already starts with `http`, otherwise resolve it against
`BASE_URL`; the title is the trimmed anchor text, or null when empty. -/
def anchorEntry (a : Node) : Option LinkEntry :=
  match getAttr a "href" with
  | none => none
  | some href =>
    if href = "" then none
    else
      let url := if strStartsWith href "http" then href else jsUrlResolve href
      let t := jsTrim (textContent a)
      some { title := if t = "" then none else some t, url := url }

/-- The `anchors.forEach` accumulation of `extractDocumentationLinks`,
appending each entry unless its URL was already collected. -/
def addAnchors (links : List LinkEntry) (anchors : List Node) : List LinkEntry :=
  anchors.foldl
    (fun ls a =>
      match anchorEntry a with
      | none => ls
      | some e => if ls.any (fun x => x.url == e.url) then ls else ls ++ [e])
    links

/-- The walking loop of `extractDocumentationLinks`: find the
"Relevant Documentation" text, then for every following non-empty text node
(until a different registry title) collect the anchors of its parent. -/
def docLinksLoop : List (String × List Node) → Bool → List LinkEntry → List LinkEntry
  | [], _, links => links
  | (s, anc) :: rest, afterHeading, links =>
    let value := jsTrim s
    if value = "" then docLinksLoop rest afterHeading links
    else if afterHeading = false then
      docLinksLoop rest (value == "Relevant Documentation") links
    else if isStopTitle "Relevant Documentation" value then
      links
    else
      match anc with
      | [] => docLinksLoop rest afterHeading links
      | p :: _ => docLinksLoop rest afterHeading (addAnchors links (anchorsIn p))

/-- `extractDocumentationLinks(document)` from `api/scrape_hub.js`. -/
def extractDocumentationLinks (doc : Node) : List LinkEntry :=
  docLinksLoop (textsAnc [] doc) false []

/-- The link entries contributed by one text node's parent element, in
document order. -/
def anchorEntries (el : Node) : List LinkEntry :=
  (anchorsIn el).filterMap anchorEntry

/-- The stream of link entries the collector's walk encounters, in
encounter order and *before* any de-duplication: the same walk as
`docLinksLoop` with the duplicate check stripped out. -/
def linkStream : List (String × List Node) → Bool → List LinkEntry
  | [], _ => []
  | (s, anc) :: rest, afterHeading =>
    let value := jsTrim s
    if value = "" then linkStream rest afterHeading
    else if afterHeading = false then
      linkStream rest (value == "Relevant Documentation")
    else if isStopTitle "Relevant Documentation" value then []
    else
      match anc with
      | [] => linkStream rest afterHeading
      | p :: _ => anchorEntries p ++ linkStream rest afterHeading

/-- Follows the claim's words "de-duplicated by URL, first-encountered
order preserved": keep each entry whose URL has not appeared before, in
order, so the first-encountered entry (and its title) survives. -/
def keepFirstByUrl : List LinkEntry → List LinkEntry
  | [] => []
  | e :: rest =>
    e :: keepFirstByUrl (rest.filter (fun x => x.url != e.url))
termination_by l => l.length
decreasing_by
  simp only [List.length_cons]
  exact Nat.lt_succ_of_le (List.length_filter_le _ _)

/-- The de-duplicating accumulation of the collector, run over an entry
stream: the common shape of `addAnchors` and `docLinksLoop`. -/
def dedupAppend (ls : List LinkEntry) (stream : List LinkEntry) : List LinkEntry :=
  stream.foldl
    (fun acc e => if acc.any (fun x => x.url == e.url) then acc else acc ++ [e]) ls

/-- The `source` object of a scraped record. -/
structure SourceInfo where
  url : Option String
  origin : String
deriving Repr, DecidableEq

/-- The normalized record shape produced by `mapToSchema`. -/
structure Record where
  id : Option String
  title : Option String
  author : Option String
  service_category : Option String
  cloud_provider : Option String
  service_name : Option String
  inefficiency_type : Option String
  explanation : String
  billing_model : String
  detection_signals : List String
  remediation_actions : List String
  documentation_links : List LinkEntry
  tags : List String
  source : SourceInfo
  scraped_at : Option String
deriving Repr, DecidableEq

/-- The raw record assembled by `parseInefficiencyDetail` before
`mapToSchema` fills in defaults. -/
structure RawRecord where
  id : Option String
  title : Option String
  author : Option String
  service_category : Option String
  cloud_provider : Option String
  service_name : Option String
  inefficiency_type : Option String
  explanation : Option String
  billing_model : Option String
  detection_signals : Option (List String)
  remediation_actions : Option (List String)
  documentation_links : Option (List LinkEntry)
  tags : Option (List String)
  source_url : Option String
  scraped_at : Option String
deriving Repr

/-- `mapToSchema(raw)` from `api/scrape_hub.js`; `now` models the
`new Date().toISOString()` fallback timestamp. -/
def mapToSchema (now : String) (raw : RawRecord) : Record :=
  { id := raw.id
    title := raw.title
    author := raw.author
    service_category := raw.service_category
    cloud_provider := raw.cloud_provider
    service_name := raw.service_name
    inefficiency_type := raw.inefficiency_type
    explanation := raw.explanation.getD ""
    billing_model := raw.billing_model.getD ""
    detection_signals := raw.detection_signals.getD []
    remediation_actions := raw.remediation_actions.getD []
    documentation_links := raw.documentation_links.getD []
    tags := raw.tags.getD []
    source := { url := raw.source_url, origin := "pointfive_cloud_efficiency_hub" }
    scraped_at := some (raw.scraped_at.getD now) }

/-- JS truthiness of a string-or-null value (`null` and `""` are falsy). -/
def optFalsy : Option String → Bool
  | none => true
  | some s => s == ""

/-- `validateScrapedData(data)` from `api/scrape_hub.js`, returning
`(isValid, errors)`.  `parses` models the `!isNaN(Date.parse(s))` builtin
check. -/
def validateScrapedData (parses : String → Bool) (d : Record) : Bool × List String :=
  let e1 := if optFalsy d.id then ["Missing or invalid id"] else []
  let e2 := if optFalsy d.title then ["Missing or invalid title"] else []
  let e3 :=
    match d.source.url with
    | none => []
    | some u =>
      if u != "" && !strStartsWith u "http" then ["Invalid source URL format"] else []
  let e4 := (d.documentation_links.enum).filterMap
    (fun pr =>
      if pr.2.url != "" && !strStartsWith pr.2.url "http" then
        some ("Invalid documentation link URL at index " ++ toString pr.1)
      else none)
  let e5 :=
    match d.scraped_at with
    | none => ["Missing or invalid scraped_at timestamp"]
    | some s =>
      if s == "" || !parses s then ["Missing or invalid scraped_at timestamp"] else []
  let errors := e1 ++ e2 ++ e3 ++ e4 ++ e5
  (errors.isEmpty, errors)

mutual
/-- The `querySelector("h1")` search: the first `h1` element in document
order, paired with its following siblings (for the author scan). -/
def firstH1 : Node → Option (Node × List Node)
  | Node.text _ => none
  | Node.elem _ _ cs => firstH1L cs
def firstH1L : List Node → Option (Node × List Node)
  | [] => none
  | c :: cs =>
    if tagOf c == "h1" then some (c, cs)
    else
      match firstH1 c with
      | some r => some r
      | none => firstH1L cs
end

/-- The title fallback walker of `parseInefficiencyDetail`: the first
non-empty trimmed text value of the document. -/
def fallbackTitle (doc : Node) : Option String :=
  ((textNodes doc).map jsTrim).find? (fun v => v != "")

/-- The title derivation of `parseInefficiencyDetail`: the first `h1` with
truthy text content, else the fallback walker. -/
def titleOf (doc : Node) : Option String :=
  match firstH1 doc with
  | some (h1, _) =>
    if textContent h1 != "" then some (jsTrim (textContent h1))
    else fallbackTitle doc
  | none => fallbackTitle doc

/-- The author sibling scan of `parseInefficiencyDetail`, walking the
nodes after the `h1` inside its parent. -/
def authorScan (title : Option String) : List Node → Option String
  | [] => none
  | Node.text s :: rest =>
    let val := jsTrim s
    if val != "" && !SECTION_TITLES.contains val then some val
    else authorScan title rest
  | Node.elem t a cs :: rest =>
    let val := jsTrim (textContent (Node.elem t a cs))
    if val != "" && (some val != title) && !SECTION_TITLES.contains val then some val
    else authorScan title rest

/-- The author derivation of `parseInefficiencyDetail` (null without `h1`). -/
def authorOf (doc : Node) (title : Option String) : Option String :=
  match firstH1 doc with
  | none => none
  | some (_, siblings) => authorScan title siblings

/-- `parseInefficiencyDetail(url)` from `api/scrape_hub.js` as a function of
the already-fetched document `doc` and the `new Date().toISOString()`
timestamp `now`. -/
def parseInefficiencyDetail (url : String) (doc : Node) (now : String) : Record :=
  let title := titleOf doc
  mapToSchema now
    { id := some (slugFromUrl url)
      title := title
      author := authorOf doc title
      service_category := findFieldValue doc "Service Category"
      cloud_provider := findFieldValue doc "Cloud Provider"
      service_name := findFieldValue doc "Service Name"
      inefficiency_type := findFieldValue doc "Inefficiency Type"
      explanation := extractSectionParagraph doc "Explanation"
      billing_model := extractSectionParagraph doc "Relevant Billing Model"
      detection_signals := some (extractSectionList doc "Detection")
      remediation_actions := some (extractSectionList doc "Remediation")
      documentation_links := some (extractDocumentationLinks doc)
      tags := some []
      source_url := some url
      scraped_at := some now }

/-- JS `Set.add` on an insertion-ordered list. -/
def setAdd (s : List String) (x : String) : List String :=
  if x ∈ s then s else s ++ [x]

/-- Add every element of `l` to the set `s`, in order. -/
def addAll (s : List String) (l : List String) : List String :=
  l.foldl setAdd s

/-- The per-page anchor loop of `extractInefficiencyUrls`: hrefs of the
index page that are non-empty and contain "/inefficiencies/", resolved to
full URLs (`href.startsWith("http") ? href : new URL(href, BASE_URL)`). -/
def pageFound (pages : Nat → List String) (p : Nat) : List String :=
  (((pages p).filter
      (fun h => h != "" && containsSub h "/inefficiencies/")).map
    (fun h => if strStartsWith h "http" then h else jsUrlResolve h))

/-- The pagination loop of `extractInefficiencyUrls`: starting at page `p`
with `fuel` pages left before the `MAX_PAGES` cap, accumulate each page's
URLs into the set and stop after the first page that yields none. -/
def discoverLoop (pages : Nat → List String) : Nat → Nat → List String → List String
  | _, 0, acc => acc
  | p, fuel + 1, acc =>
    let found := pageFound pages p
    let acc2 := addAll acc found
    if found.isEmpty then acc2
    else discoverLoop pages (p + 1) fuel acc2

/-- The `MAX_PAGES` safety cap of `extractInefficiencyUrls`. -/
def MAX_PAGES : Nat := 30

/-- Code-unit lexicographic order on character lists: models the default
comparison of JS `Array.prototype.sort()` on strings. -/
def lexLe : List Char → List Char → Bool
  | [], _ => true
  | _ :: _, [] => false
  | x :: xs, y :: ys => if x = y then lexLe xs ys else decide (x.toNat < y.toNat)

/-- The string order used by `urls.sort()`. -/
def strLe (a b : String) : Bool :=
  lexLe a.data b.data

/-- The sorting relation of `urls.sort()` as a proposition. -/
def StrOrd (a b : String) : Prop :=
  strLe a b = true

instance : DecidableRel StrOrd := fun a b => by
  unfold StrOrd
  infer_instance

/-- The discovery output of `extractInefficiencyUrls` before the limit
slice: the de-duplicated URL set, sorted (`urls.sort()`). -/
def discoverSorted (pages : Nat → List String) : List String :=
  List.insertionSort StrOrd (discoverLoop pages 1 MAX_PAGES [])

/-- The final slice of `extractInefficiencyUrls`:
`if (typeof limit === "number" && limit > 0) return urls.slice(0, limit)`.
`none` models a `NaN` limit. -/
def applyLimit (limit : Option Int) (urls : List String) : List String :=
  match limit with
  | some l => if 0 < l then urls.take l.toNat else urls
  | none => urls

/-- `extractInefficiencyUrls(limit)` from `api/scrape_hub.js`, as a function
of the per-page index hrefs `pages`. -/
def extractInefficiencyUrls (pages : Nat → List String) (limit : Option Int) :
    List String :=
  applyLimit limit (discoverSorted pages)

/-- The handler's limit parsing:
`limitParam ? parseInt(limitParam, 10) : 5` (null and the empty string are
falsy, so both fall back to the default of 5). -/
def handlerLimit (limitParam : Option String) : Option Int :=
  match limitParam with
  | none => some 5
  | some s => if s = "" then some 5 else jsParseInt s

/-- The URLs the batch entry point processes for a given `limit` query
parameter. -/
def batchUrls (pages : Nat → List String) (limitParam : Option String) :
    List String :=
  extractInefficiencyUrls pages (handlerLimit limitParam)

/-- One entry of the handler's error list: `{url, error, index}`. -/
structure BatchError where
  url : String
  error : String
  index : Nat
deriving Repr, DecidableEq

/-- The accumulated state of the handler's batch loop.  `warnings` records
the URLs for which `validateScrapedData` reported failures (the
`logger.warn('Data validation warnings', ...)` calls). -/
structure BatchOutcome where
  results : List Record
  errors : List BatchError
  warnings : List String
deriving Repr

/-- The batch loop of the handler in `api/scrape_hub.js`: for each URL try
`parseInefficiencyDetail` (modelled by the `fetchParse` oracle since it
fetches over the network), validate, and push the record; on a fetch error
push `{url, error, index: i + 1}` and continue with the next URL. -/
def batchLoop (fetchParse : String → Except String Record) (parses : String → Bool) :
    List String → Nat → BatchOutcome → BatchOutcome
  | [], _, st => st
  | url :: rest, i, st =>
    match fetchParse url with
    | Except.ok record =>
      let warns :=
        if (validateScrapedData parses record).1 then st.warnings
        else st.warnings ++ [url]
      batchLoop fetchParse parses rest (i + 1)
        { results := st.results ++ [record], errors := st.errors, warnings := warns }
    | Except.error msg =>
      batchLoop fetchParse parses rest (i + 1)
        { results := st.results,
          errors := st.errors ++ [{ url := url, error := msg, index := i + 1 }],
          warnings := st.warnings }

/-- The whole batch of the handler over an ordered URL list. -/
def batchProcess (fetchParse : String → Except String Record)
    (parses : String → Bool) (urls : List String) : BatchOutcome :=
  batchLoop fetchParse parses urls 0 { results := [], errors := [], warnings := [] }

/-- An entry that was produced by some anchor element of the document. -/
def GoodEntry (doc : Node) (e : LinkEntry) : Prop :=
  ∃ a, a ∈ subElemsSelf doc ∧ isAnchorWithHref a = true ∧ anchorEntry a = some e

/-- A "Detection" section whose list has an item that itself contains a
nested list: `<ul><li>A<ul><li>B</li></ul></li></ul>`. -/
def listCexDoc : Node :=
  Node.elem "body" []
    [ Node.text "Detection",
      Node.elem "ul" []
        [ Node.elem "li" []
            [ Node.text "A",
              Node.elem "ul" [] [ Node.elem "li" [] [ Node.text "B" ] ] ] ] ]

/-- A documentation section whose only anchor has the relative href
`httpdocs/x`, which begins with the literal "http". -/
def linksCexDoc : Node :=
  Node.elem "body" []
    [ Node.text "Relevant Documentation",
      Node.elem "p" []
        [ Node.text "See ",
          Node.elem "a" [("href", "httpdocs/x")] [ Node.text "Doc" ] ] ]

/-- A well-behaved documentation section with one relative href `docs/x`. -/
def linksWitnessDoc : Node :=
  Node.elem "body" []
    [ Node.text "Relevant Documentation",
      Node.elem "p" []
        [ Node.text "Read ",
          Node.elem "a" [("href", "docs/x")] [ Node.text " Guide " ] ] ]

/-- A concrete record for exercising the batch loop. -/
def sampleRecord : Record :=
  { id := some "idle-ec2"
    title := some "Idle EC2"
    author := none
    service_category := some "Compute"
    cloud_provider := some "AWS"
    service_name := some "EC2"
    inefficiency_type := some "Idle"
    explanation := "x"
    billing_model := ""
    detection_signals := []
    remediation_actions := []
    documentation_links := []
    tags := []
    source := { url := some "https://hub.pointfive.co/inefficiencies/idle-ec2",
                origin := "pointfive_cloud_efficiency_hub" }
    scraped_at := some "2024-01-01T00:00:00.000Z" }

/-- A fetch oracle whose second URL times out. -/
def sampleFetch (u : String) : Except String Record :=
  if u = "https://hub.pointfive.co/inefficiencies/b" then
    Except.error "Fetch timeout after 8000ms"
  else Except.ok sampleRecord

/-- A record that is valid in every respect except that its id is the
*empty* string (still present, still a string). -/
def validatorCexRecord : Record :=
  { sampleRecord with id := some "" }

/-- The concatenation of the extracted links of pages `p, …, p + k - 1`. -/
def foundRange (pages : Nat → List String) : Nat → Nat → List String
  | _, 0 => []
  | p, k + 1 => pageFound pages p ++ foundRange pages (p + 1) k

/-- A one-page index: page 1 has two matching hrefs, page 2 is empty. -/
def wPages : Nat → List String := fun q =>
  if q = 1 then ["/inefficiencies/idle-a", "/inefficiencies/idle-b"] else []

/-- The same index with the links of page 1 in the opposite order. -/
def wPages2 : Nat → List String := fun q =>
  if q = 1 then ["/inefficiencies/idle-b", "/inefficiencies/idle-a"] else []

/-! ### The string order of `urls.sort()` is a linear order -/

theorem char_toNat_inj {x y : Char} (h : x.toNat = y.toNat) : x = y :=
  Char.ext (UInt32.ext h)

theorem lexLe_total : ∀ a b : List Char, lexLe a b = true ∨ lexLe b a = true := by
  intro a
  induction a with
  | nil => intro b; exact Or.inl rfl
  | cons x xs ih =>
    intro b
    cases b with
    | nil => exact Or.inr rfl
    | cons y ys =>
      by_cases hxy : x = y
      · subst hxy
        simp only [lexLe, if_pos rfl]
        exact ih ys
      · have hts : ¬x.toNat = y.toNat := fun h => hxy (char_toNat_inj h)
        simp only [lexLe, if_neg hxy, if_neg (Ne.symm hxy)]
        rcases Nat.lt_or_ge x.toNat y.toNat with hlt | hge
        · exact Or.inl (by simpa using hlt)
        · have : y.toNat < x.toNat := Nat.lt_of_le_of_ne hge (fun h => hts h.symm)
          exact Or.inr (by simpa using this)

theorem lexLe_trans : ∀ a b c : List Char,
    lexLe a b = true → lexLe b c = true → lexLe a c = true := by
  intro a
  induction a with
  | nil => intro b c _ _; rfl
  | cons x xs ih =>
    intro b c hab hbc
    cases b with
    | nil => simp [lexLe] at hab
    | cons y ys =>
      cases c with
      | nil => simp [lexLe] at hbc
      | cons z zs =>
        by_cases hxy : x = y <;> by_cases hyz : y = z
        · subst hxy; subst hyz
          simp only [lexLe, if_pos rfl] at hab hbc ⊢
          exact ih ys zs hab hbc
        · subst hxy
          simp only [lexLe, if_pos rfl, if_neg hyz] at hbc ⊢
          exact hbc
        · subst hyz
          simp only [lexLe, if_neg hxy] at hab ⊢
          exact hab
        · simp only [lexLe, if_neg hxy] at hab
          simp only [lexLe, if_neg hyz] at hbc
          have h1 : x.toNat < y.toNat := by simpa using hab
          have h2 : y.toNat < z.toNat := by simpa using hbc
          have hxz : ¬x = z := by
            intro h
            subst h
            omega
          simp only [lexLe, if_neg hxz]
          simpa using Nat.lt_trans h1 h2

theorem lexLe_antisymm : ∀ a b : List Char,
    lexLe a b = true → lexLe b a = true → a = b := by
  intro a
  induction a with
  | nil =>
    intro b _ hba
    cases b with
    | nil => rfl
    | cons y ys => simp [lexLe] at hba
  | cons x xs ih =>
    intro b hab hba
    cases b with
    | nil => simp [lexLe] at hab
    | cons y ys =>
      by_cases hxy : x = y
      · subst hxy
        simp only [lexLe, if_pos rfl] at hab hba
        rw [ih ys hab hba]
      · simp only [lexLe, if_neg hxy, if_neg (Ne.symm hxy)] at hab hba
        have h1 : x.toNat < y.toNat := by simpa using hab
        have h2 : y.toNat < x.toNat := by simpa using hba
        omega

instance : IsTotal String StrOrd :=
  ⟨fun a b => lexLe_total a.data b.data⟩

instance : IsTrans String StrOrd :=
  ⟨fun a b c => lexLe_trans a.data b.data c.data⟩

instance : IsAntisymm String StrOrd :=
  ⟨fun a b hab hba => by
    have h := lexLe_antisymm a.data b.data hab hba
    cases a; cases b
    exact congrArg String.mk h⟩

/-! ### Characterization of the text-walk scan loops -/

theorem fieldLoop_seen (lab : String) (l : List String) :
    fieldLoop lab l true = ((l.map jsTrim).filter (fun v => v != "")).head? := by
  induction l with
  | nil => rfl
  | cons s rest ih =>
    by_cases h : jsTrim s = ""
    · simp [fieldLoop, h, ih]
    · simp [fieldLoop, h]

theorem fieldLoop_unseen (lab : String) (l : List String) :
    fieldLoop lab l false =
      (((((l.map jsTrim).filter (fun v => v != "")).dropWhile
          (fun v => v != lab)).drop 1)).head? := by
  induction l with
  | nil => rfl
  | cons s rest ih =>
    by_cases h : jsTrim s = ""
    · simp [fieldLoop, h, ih]
    · by_cases h2 : jsTrim s = lab
      · have hlab : ¬(lab = "") := h2 ▸ h
        simp [fieldLoop, h2, hlab, fieldLoop_seen, bne_iff_ne]
      · simp [fieldLoop, h, h2, ih, bne_iff_ne, Ne.symm h2]

/-- C4: the field locator scans the document-order text sequence; at the
first text node whose trimmed text equals the label it returns the next
non-empty trimmed text value; it is absent when the label never occurs or
no further non-empty text follows it, and an earlier occurrence of the
label always wins (the value is read right after the *first* match). -/
theorem findFieldValue_spec (doc : Node) (labelText : String) :
    findFieldValue doc labelText =
      (((((textNodes doc).map jsTrim).filter (fun v => v != "")).dropWhile
          (fun v => v != labelText)).drop 1).head? :=
  fieldLoop_unseen labelText (textNodes doc)

theorem paragraphLoop_in (h : String) (l : List String) (c : List String) :
    paragraphLoop h l true c =
      c ++ ((l.map jsTrim).filter (fun v => v != "")).takeWhile
        (fun v => !isStopTitle h v) := by
  induction l generalizing c with
  | nil => simp [paragraphLoop]
  | cons s rest ih =>
    by_cases he : jsTrim s = ""
    · simp [paragraphLoop, he, ih]
    · by_cases hs : isStopTitle h (jsTrim s) = true
      · simp [paragraphLoop, he, hs]
      · simp only [Bool.not_eq_true] at hs
        simp [paragraphLoop, he, hs, ih]

theorem paragraphLoop_out (h : String) (l : List String) (c : List String) :
    paragraphLoop h l false c =
      (if h ∈ (l.map jsTrim).filter (fun v => v != "") then
        c ++ ((((l.map jsTrim).filter (fun v => v != "")).dropWhile
            (fun v => v != h)).drop 1).takeWhile (fun v => !isStopTitle h v)
      else c) := by
  induction l generalizing c with
  | nil => simp [paragraphLoop]
  | cons s rest ih =>
    by_cases he : jsTrim s = ""
    · simp [paragraphLoop, he, ih]
    · by_cases h2 : jsTrim s = h
      · have hh : ¬(h = "") := h2 ▸ he
        simp [paragraphLoop, h2, hh, paragraphLoop_in, bne_iff_ne]
      · simp [paragraphLoop, he, h2, ih, bne_iff_ne, Ne.symm h2]

/-- C3: the paragraph-mode section extractor enters at the first trimmed
text value equal to the heading, collects every later non-empty value up to
(but excluding) the first value equal to a *different* registry heading,
and returns the collected fragments joined by one space, whitespace runs
collapsed to one space and trimmed — absent when the heading is missing or
nothing was collected. -/
theorem extractSectionParagraph_spec (doc : Node) (headingText : String) :
    extractSectionParagraph doc headingText =
      (let ts := ((textNodes doc).map jsTrim).filter (fun v => v != "")
       let body := ((ts.dropWhile (fun v => v != headingText)).drop 1).takeWhile
         (fun v => !isStopTitle headingText v)
       if headingText ∈ ts then
         (if body = [] then none
          else some (jsTrim (collapseWs (String.intercalate " " body))))
       else none) := by
  simp only [extractSectionParagraph, paragraphLoop_out, List.nil_append]
  by_cases hm :
      headingText ∈ ((textNodes doc).map jsTrim).filter (fun v => v != "")
  · simp only [hm, if_true]
    split
    · simp_all
    · simp_all
  · simp [hm]

theorem headingSearch_eq (h : String) (w : List (String × List Node)) :
    headingSearch h w =
      (w.find? (fun p => jsTrim p.1 != "" && jsTrim p.1 == h)).map (fun p => p.2) := by
  induction w with
  | nil => rfl
  | cons p rest ih =>
    obtain ⟨s, anc⟩ := p
    by_cases he : jsTrim s = ""
    · simp [headingSearch, he, ih]
    · by_cases h2 : jsTrim s = h
      · have hh : ¬(h = "") := h2 ▸ he
        simp only [headingSearch]
        rw [if_neg he, if_pos h2, List.find?_cons_of_pos _ (by simp [h2, hh])]
        rfl
      · simp only [headingSearch]
        rw [if_neg he, if_neg h2, List.find?_cons_of_neg _ (by simp [he, h2]), ih]

theorem climb_eq (l : List Node) :
    climb l = l.find? (fun c => (descElems c).any isUl) := by
  induction l with
  | nil => rfl
  | cons c rest ih =>
    by_cases hc : (descElems c).any isUl = true
    · simp [climb, hc]
    · simp only [Bool.not_eq_true] at hc
      simp [climb, hc, ih]

theorem find?_eq_head?_filter {α : Type} (p : α → Bool) (l : List α) :
    l.find? p = (l.filter p).head? := by
  induction l with
  | nil => rfl
  | cons a rest ih =>
    by_cases ha : p a = true
    · rw [List.find?_cons_of_pos _ ha, List.filter_cons_of_pos ha]
      rfl
    · rw [List.find?_cons_of_neg _ ha, List.filter_cons_of_neg (by simpa using ha), ih]

theorem liTexts_foldl (f : Node → String) (l : List Node) (acc : List String) :
    l.foldl (fun items li =>
        let t := f li
        if t = "" then items else items ++ [t]) acc =
      acc ++ (l.map f).filter (fun t => t != "") := by
  induction l generalizing acc with
  | nil => simp
  | cons a rest ih =>
    by_cases ha : f a = ""
    · simp [ha, ih]
    · simp [ha, ih]

theorem liTexts_eq (ul : Node) :
    liTexts ul =
      (((descElems ul).filter isLi).map (fun li => jsTrim (textContent li))).filter
        (fun t => t != "") := by
  simpa [liTexts] using
    liTexts_foldl (fun li => jsTrim (textContent li)) ((descElems ul).filter isLi) []

/-- C5 (amended: "item descendants" in place of "item children"): the
list-mode extractor locates the first non-empty trimmed text node equal to
the heading, picks the innermost enclosing element that has a `ul`
descendant, takes the first `ul` inside it in document order, and returns
the trimmed text of all its `li` *descendants* in document order with empty
items dropped — and the empty sequence, never an error, when the heading,
such an ancestor, or non-empty items are missing. -/
theorem extractSectionList_spec (doc : Node) (headingText : String) :
    extractSectionList doc headingText =
      (match ((textsAnc [] doc).find?
          (fun p => jsTrim p.1 != "" && jsTrim p.1 == headingText)).map (fun p => p.2) with
       | none => []
       | some anc =>
         match anc.find? (fun c => (descElems c).any isUl) with
         | none => []
         | some container =>
           match ((descElems container).filter isUl).head? with
           | none => []
           | some ul =>
             (((descElems ul).filter isLi).map (fun li => jsTrim (textContent li))).filter
               (fun t => t != "")) := by
  simp only [extractSectionList, headingSearch_eq, climb_eq, find?_eq_head?_filter,
    liTexts_eq]

/-- C5 counterexample: on a nested list the extractor returns the trimmed
text of all `li` *descendants* of the first list (duplicating the nested
item), not of its item children as the claim states. -/
theorem extractSectionList_children_cex :
    extractSectionList listCexDoc "Detection" = ["AB", "B"] ∧
    extractSectionListClaim listCexDoc "Detection" = ["AB"] := by
  exact ⟨rfl, rfl⟩

/-! ### Tree-closure facts for the link collector -/

theorem node_pair_ind (P : Node → Prop) (PL : List Node → Prop)
    (h1 : ∀ s, P (Node.text s))
    (h2 : ∀ t a cs, PL cs → P (Node.elem t a cs))
    (h3 : PL [])
    (h4 : ∀ c cs, P c → PL cs → PL (c :: cs)) : ∀ n, P n :=
  fun n => Node.rec h1 h2 h3 h4 n

theorem node_pair_indL (P : Node → Prop) (PL : List Node → Prop)
    (h1 : ∀ s, P (Node.text s))
    (h2 : ∀ t a cs, PL cs → P (Node.elem t a cs))
    (h3 : PL [])
    (h4 : ∀ c cs, P c → PL cs → PL (c :: cs)) : ∀ cs, PL cs := by
  intro cs
  induction cs with
  | nil => exact h3
  | cons c cs ih => exact h4 c cs (node_pair_ind P PL h1 h2 h3 h4 c) ih

/-- Every element on the ancestor chain of a walked text node is either in
the starting chain or an element of the walked subtree. -/
theorem textsAnc_chain_closed :
    ∀ n : Node, ∀ anc0 pr, pr ∈ textsAnc anc0 n →
      ∀ x ∈ pr.2, x ∈ anc0 ∨ x ∈ subElemsSelf n := by
  apply node_pair_ind
    (fun n => ∀ anc0 pr, pr ∈ textsAnc anc0 n →
      ∀ x ∈ pr.2, x ∈ anc0 ∨ x ∈ subElemsSelf n)
    (fun cs => ∀ anc0 pr, pr ∈ textsAncL anc0 cs →
      ∀ x ∈ pr.2, x ∈ anc0 ∨ x ∈ subElemsSelfL cs)
  · intro s anc0 pr hpr x hx
    simp only [textsAnc, List.mem_singleton] at hpr
    subst hpr
    exact Or.inl hx
  · intro t a cs ih anc0 pr hpr x hx
    simp only [textsAnc] at hpr
    rcases ih _ _ hpr x hx with hin | hin
    · rcases List.mem_cons.mp hin with rfl | hin'
      · exact Or.inr (List.mem_cons_self _ _)
      · exact Or.inl hin'
    · exact Or.inr (List.mem_cons_of_mem _ hin)
  · intro anc0 pr hpr
    simp [textsAncL] at hpr
  · intro c cs ihc ihcs anc0 pr hpr x hx
    simp only [textsAncL, List.mem_append] at hpr
    rcases hpr with hpr | hpr
    · rcases ihc _ _ hpr x hx with hin | hin
      · exact Or.inl hin
      · exact Or.inr (by simp only [subElemsSelfL, List.mem_append]; exact Or.inl hin)
    · rcases ihcs _ _ hpr x hx with hin | hin
      · exact Or.inl hin
      · exact Or.inr (by simp only [subElemsSelfL, List.mem_append]; exact Or.inr hin)

/-- The descendant-element relation is transitive. -/
theorem subElemsSelf_trans :
    ∀ n : Node, ∀ a ∈ subElemsSelf n, ∀ b ∈ subElemsSelf a, b ∈ subElemsSelf n := by
  apply node_pair_ind
    (fun n => ∀ a ∈ subElemsSelf n, ∀ b ∈ subElemsSelf a, b ∈ subElemsSelf n)
    (fun cs => ∀ a ∈ subElemsSelfL cs, ∀ b ∈ subElemsSelf a, b ∈ subElemsSelfL cs)
  · intro s a ha
    simp [subElemsSelf] at ha
  · intro t at_ cs ih a ha b hb
    simp only [subElemsSelf, List.mem_cons] at ha ⊢
    rcases ha with rfl | ha
    · simpa only [subElemsSelf, List.mem_cons] using hb
    · exact Or.inr (ih a ha b hb)
  · intro a ha
    simp [subElemsSelfL] at ha
  · intro c cs ihc ihcs a ha b hb
    simp only [subElemsSelfL, List.mem_append] at ha ⊢
    rcases ha with ha | ha
    · exact Or.inl (ihc a ha b hb)
    · exact Or.inr (ihcs a ha b hb)

theorem descElems_sub (n : Node) : ∀ b ∈ descElems n, b ∈ subElemsSelf n := by
  cases n with
  | text s => intro b hb; simp [descElems] at hb
  | elem t a cs =>
    intro b hb
    simp only [descElems] at hb
    simp only [subElemsSelf, List.mem_cons]
    exact Or.inr hb

theorem startsList_self_append : ∀ l r : List Char, startsList l (l ++ r) = true := by
  intro l
  induction l with
  | nil => intro r; rfl
  | cons c cs ih => intro r; simp [startsList, ih]

theorem strStartsWith_append (p r : String) : strStartsWith (p ++ r) p = true := by
  simp [strStartsWith, String.data_append, startsList_self_append]

theorem addAnchors_nodup (as : List Node) :
    ∀ ls : List LinkEntry, ((ls.map (fun e => e.url)).Nodup) →
      ((addAnchors ls as).map (fun e => e.url)).Nodup := by
  induction as with
  | nil => intro ls h; exact h
  | cons a as ih =>
    intro ls h
    simp only [addAnchors, List.foldl_cons]
    rcases he : anchorEntry a with _ | e
    · simpa only [addAnchors, he] using ih ls h
    · simp only [he]
      by_cases hd : ls.any (fun x => x.url == e.url) = true
      · simpa only [addAnchors, hd, if_true] using ih ls h
      · simp only [hd]
        simp only [Bool.not_eq_true] at hd
        have hnot : e.url ∉ ls.map (fun x => x.url) := by
          intro hmem
          rcases List.mem_map.mp hmem with ⟨x, hx, hxe⟩
          have := List.any_eq_false.mp hd x hx
          simp [hxe] at this
        have h2 : ((ls ++ [e]).map (fun x => x.url)).Nodup := by
          rw [List.map_append]
          refine List.nodup_append.mpr ⟨h, List.nodup_singleton _, ?_⟩
          intro y hy hy2
          simp only [List.map_cons, List.map_nil, List.mem_singleton] at hy2
          exact hnot (hy2 ▸ hy)
        simpa only [addAnchors, if_neg] using ih (ls ++ [e]) h2

theorem addAnchors_good (doc : Node) (as : List Node) :
    ∀ ls : List LinkEntry, (∀ e ∈ ls, GoodEntry doc e) →
      (∀ a ∈ as, a ∈ subElemsSelf doc ∧ isAnchorWithHref a = true) →
      ∀ e ∈ addAnchors ls as, GoodEntry doc e := by
  induction as with
  | nil => intro ls h _ e he; exact h e he
  | cons a as ih =>
    intro ls h has e he
    simp only [addAnchors, List.foldl_cons] at he
    rcases hae : anchorEntry a with _ | e2
    · simp only [hae] at he
      exact ih ls h (fun x hx => has x (List.mem_cons_of_mem _ hx)) e
        (by simpa only [addAnchors] using he)
    · simp only [hae] at he
      by_cases hd : ls.any (fun x => x.url == e2.url) = true
      · rw [if_pos hd] at he
        exact ih ls h (fun x hx => has x (List.mem_cons_of_mem _ hx)) e
          (by simpa only [addAnchors] using he)
      · rw [if_neg hd] at he
        have hgood2 : ∀ x ∈ ls ++ [e2], GoodEntry doc x := by
          intro x hx
          rcases List.mem_append.mp hx with hx | hx
          · exact h x hx
          · have hx2 : x = e2 := List.mem_singleton.mp hx
            subst hx2
            obtain ⟨hmem, hanch⟩ := has a (List.mem_cons_self _ _)
            exact ⟨a, hmem, hanch, hae⟩
        exact ih (ls ++ [e2]) hgood2 (fun x hx => has x (List.mem_cons_of_mem _ hx)) e
          (by simpa only [addAnchors] using he)

theorem docLinksLoop_nodup (w : List (String × List Node)) :
    ∀ b ls, ((ls.map (fun e => e.url)).Nodup) →
      ((docLinksLoop w b ls).map (fun e => e.url)).Nodup := by
  induction w with
  | nil => intro b ls h; exact h
  | cons pr rest ih =>
    intro b ls h
    obtain ⟨s, anc⟩ := pr
    simp only [docLinksLoop]
    by_cases he : jsTrim s = ""
    · simp only [he, if_pos rfl]
      exact ih _ _ h
    · rw [if_neg he]
      by_cases hb : b = false
      · rw [if_pos hb]
        exact ih _ _ h
      · rw [if_neg hb]
        by_cases hst : isStopTitle "Relevant Documentation" (jsTrim s) = true
        · rw [if_pos hst]
          exact h
        · rw [if_neg hst]
          cases anc with
          | nil => exact ih _ _ h
          | cons p ps => exact ih _ _ (addAnchors_nodup _ _ h)

theorem docLinksLoop_good (doc : Node) (w : List (String × List Node)) :
    ∀ b ls, (∀ e ∈ ls, GoodEntry doc e) →
      (∀ pr ∈ w, ∀ x ∈ pr.2, x ∈ subElemsSelf doc) →
      ∀ e ∈ docLinksLoop w b ls, GoodEntry doc e := by
  induction w with
  | nil => intro b ls h _ e he; exact h e he
  | cons pr rest ih =>
    intro b ls h hw e he
    obtain ⟨s, anc⟩ := pr
    have hwrest : ∀ pr ∈ rest, ∀ x ∈ pr.2, x ∈ subElemsSelf doc :=
      fun pr hpr => hw pr (List.mem_cons_of_mem _ hpr)
    simp only [docLinksLoop] at he
    by_cases hemp : jsTrim s = ""
    · rw [if_pos hemp] at he
      exact ih _ _ h hwrest e he
    · rw [if_neg hemp] at he
      by_cases hb : b = false
      · rw [if_pos hb] at he
        exact ih _ _ h hwrest e he
      · rw [if_neg hb] at he
        by_cases hst : isStopTitle "Relevant Documentation" (jsTrim s) = true
        · rw [if_pos hst] at he
          exact h e he
        · rw [if_neg hst] at he
          cases anc with
          | nil => exact ih _ _ h hwrest e he
          | cons p ps =>
            have hp : p ∈ subElemsSelf doc :=
              hw (s, p :: ps) (List.mem_cons_self _ _) p (List.mem_cons_self _ _)
            have hanchors : ∀ a ∈ anchorsIn p, a ∈ subElemsSelf doc ∧
                isAnchorWithHref a = true := by
              intro a ha
              obtain ⟨hmem, hflag⟩ := List.mem_filter.mp ha
              exact ⟨subElemsSelf_trans doc p hp a (descElems_sub p a hmem), hflag⟩
            exact ih _ _ (addAnchors_good doc (anchorsIn p) ls h hanchors) hwrest e he

theorem addAnchors_eq_dedupAppend : ∀ (as : List Node) (ls : List LinkEntry),
    addAnchors ls as = dedupAppend ls (as.filterMap anchorEntry) := by
  intro as
  induction as with
  | nil => intro ls; rfl
  | cons a t ih =>
    intro ls
    simp only [addAnchors, List.foldl_cons, List.filterMap_cons]
    rcases hae : anchorEntry a with _ | e
    · simp only [hae]
      exact ih ls
    · simp only [hae]
      by_cases hd : ls.any (fun x => x.url == e.url) = true
      · rw [if_pos hd]
        simpa only [addAnchors, dedupAppend, List.foldl_cons, if_pos hd] using ih ls
      · rw [if_neg hd]
        simpa only [addAnchors, dedupAppend, List.foldl_cons, if_neg hd]
          using ih (ls ++ [e])

theorem dedupAppend_append (ls s1 s2 : List LinkEntry) :
    dedupAppend ls (s1 ++ s2) = dedupAppend (dedupAppend ls s1) s2 := by
  simp [dedupAppend, List.foldl_append]

theorem docLinksLoop_eq_stream : ∀ (w : List (String × List Node)) (b : Bool)
    (ls : List LinkEntry), docLinksLoop w b ls = dedupAppend ls (linkStream w b) := by
  intro w
  induction w with
  | nil => intro b ls; rfl
  | cons pr rest ih =>
    intro b ls
    obtain ⟨s, anc⟩ := pr
    simp only [docLinksLoop, linkStream]
    by_cases he : jsTrim s = ""
    · rw [if_pos he, if_pos he]
      exact ih _ _
    · rw [if_neg he, if_neg he]
      by_cases hb : b = false
      · rw [if_pos hb, if_pos hb]
        exact ih _ _
      · rw [if_neg hb, if_neg hb]
        by_cases hst : isStopTitle "Relevant Documentation" (jsTrim s) = true
        · rw [if_pos hst, if_pos hst]
          rfl
        · rw [if_neg hst, if_neg hst]
          cases anc with
          | nil => exact ih _ _
          | cons p ps =>
            dsimp only
            rw [ih _ _, addAnchors_eq_dedupAppend, dedupAppend_append]
            rfl

theorem url_beq_comm (a b : String) : (a == b) = (b == a) := by
  by_cases h : a = b
  · simp [h]
  · simp [h, Ne.symm h]

theorem dedupAppend_eq_keepFirst : ∀ (stream ls : List LinkEntry),
    dedupAppend ls stream =
      ls ++ keepFirstByUrl
        (stream.filter (fun e => !(ls.any (fun x => x.url == e.url)))) := by
  intro stream
  induction stream with
  | nil => intro ls; simp [dedupAppend, keepFirstByUrl]
  | cons e rest ih =>
    intro ls
    have hda : dedupAppend ls (e :: rest) =
        dedupAppend
          (if ls.any (fun x => x.url == e.url) then ls else ls ++ [e]) rest := rfl
    by_cases hd : ls.any (fun x => x.url == e.url) = true
    · rw [hda, if_pos hd, ih ls, List.filter_cons]
      rw [if_neg (by simp [hd])]
    · rw [hda, if_neg hd, ih (ls ++ [e]), List.filter_cons]
      rw [if_pos (by simp only [Bool.not_eq_true] at hd; simp [hd])]
      have hfilter : rest.filter
            (fun x => !((ls ++ [e]).any (fun y => y.url == x.url))) =
          (rest.filter (fun x => !(ls.any (fun y => y.url == x.url)))).filter
            (fun x => x.url != e.url) := by
        rw [List.filter_filter]
        refine List.filter_congr ?_
        intro x _
        simp only [List.any_append, List.any_cons, List.any_nil, Bool.or_false,
          Bool.not_or, bne, strLe]
        rw [show (e.url == x.url) = (x.url == e.url) from url_beq_comm e.url x.url]
        rw [Bool.and_comm]
      rw [hfilter]
      rw [show keepFirstByUrl
          (e :: rest.filter (fun x => !(ls.any (fun y => y.url == x.url)))) =
          e :: keepFirstByUrl
            ((rest.filter (fun x => !(ls.any (fun y => y.url == x.url)))).filter
              (fun x => x.url != e.url)) from by rw [keepFirstByUrl]]
      simp

theorem extractDocumentationLinks_eq_keepFirst (doc : Node) :
    extractDocumentationLinks doc =
      keepFirstByUrl (linkStream (textsAnc [] doc) false) := by
  rw [extractDocumentationLinks, docLinksLoop_eq_stream, dedupAppend_eq_keepFirst]
  simp

/-- C6 (amended: hrefs that already begin with the literal "http" are kept
verbatim): the link collector's output is exactly the stream of anchor
entries its walk encounters, in first-encountered order, de-duplicated by
URL with the first occurrence (and hence its title) surviving; therefore
it never emits two entries with the same resolved URL; every entry comes
from an anchor element of the document via `anchorEntry` (so its title is
the anchor's trimmed text, or null when that is empty, and its URL is the
href itself when the href starts with "http" and the base-resolved URL
otherwise); and the resolver maps every scheme-less, non-protocol-relative
href to an absolute URL on the fixed base. -/
theorem extractDocumentationLinks_spec (doc : Node) :
    extractDocumentationLinks doc =
      keepFirstByUrl (linkStream (textsAnc [] doc) false)
    ∧ ((extractDocumentationLinks doc).map (fun e => e.url)).Nodup
    ∧ (∀ e ∈ extractDocumentationLinks doc, GoodEntry doc e)
    ∧ (∀ href, hasScheme href = false → strStartsWith href "//" = false →
        strStartsWith (jsUrlResolve href) BASE_URL = true) := by
  refine ⟨extractDocumentationLinks_eq_keepFirst doc, ?_, ?_, ?_⟩
  · exact docLinksLoop_nodup _ false [] (by simp)
  · intro e he
    refine docLinksLoop_good doc (textsAnc [] doc) false [] (by simp) ?_ e he
    intro pr hpr x hx
    rcases textsAnc_chain_closed doc [] pr hpr x hx with hin | hin
    · simp at hin
    · exact hin
  · intro href h1 h2
    unfold jsUrlResolve
    rw [if_neg (by simp [h1]), if_neg (by simp [h2])]
    by_cases h3 : strStartsWith href "/" = true
    · rw [if_pos h3]
      exact strStartsWith_append BASE_URL href
    · rw [if_neg h3]
      have : BASE_URL ++ "/" ++ href = BASE_URL ++ ("/" ++ href) := by
        rw [String.append_assoc]
      rw [this]
      exact strStartsWith_append BASE_URL ("/" ++ href)

/-- C6 counterexample: the href `httpdocs/x` is relative (it has no scheme)
yet the collector keeps it verbatim — the emitted URL is neither absolute
nor resolved against the base URL, because the code treats any href that
starts with "http" as already absolute. -/
theorem extractDocumentationLinks_cex :
    extractDocumentationLinks linksCexDoc =
      [{ title := some "Doc", url := "httpdocs/x" }]
    ∧ hasScheme "httpdocs/x" = false
    ∧ strStartsWith "httpdocs/x" BASE_URL = false := by
  exact ⟨rfl, rfl, rfl⟩

theorem extractDocumentationLinks_spec_witness :
    GoodEntry linksWitnessDoc
      { title := some "Guide", url := "https://hub.pointfive.co/docs/x" }
    ∧ strStartsWith (jsUrlResolve "docs/x") BASE_URL = true :=
  ⟨(extractDocumentationLinks_spec linksWitnessDoc).2.2.1 _ (List.mem_cons_self _ _),
   (extractDocumentationLinks_spec linksWitnessDoc).2.2.2 "docs/x" rfl rfl⟩

/-! ### Slug derivation: split / strip lemmas -/

theorem splitChar_ne_nil (c : Char) : ∀ l : List Char, splitChar c l ≠ [] := by
  intro l
  induction l with
  | nil => simp [splitChar]
  | cons x xs ih =>
    simp only [splitChar]
    by_cases hx : x = c
    · simp [hx]
    · rw [if_neg (by simpa using hx)]
      rcases hs : splitChar c xs with _ | ⟨h, t⟩
      · simp
      · simp

theorem getLastD_irrel {α : Type} :
    ∀ (L : List α) (d1 d2 : α), L ≠ [] → L.getLastD d1 = L.getLastD d2 := by
  intro L
  induction L with
  | nil => intro d1 d2 h; exact absurd rfl h
  | cons x t ih =>
    intro d1 d2 _
    cases t with
    | nil => rfl
    | cons y t2 => simp only [List.getLastD_cons]

theorem getLastD_cons_ne {α : Type} (a d : α) (L : List α) (h : L ≠ []) :
    (a :: L).getLastD d = L.getLastD d := by
  rw [List.getLastD_cons]
  exact getLastD_irrel L a d h

theorem getLastD_mem {α : Type} :
    ∀ (L : List α) (d : α), L ≠ [] → L.getLastD d ∈ L := by
  intro L
  induction L with
  | nil => intro d h; exact absurd rfl h
  | cons x t ih =>
    intro d _
    cases t with
    | nil => simp
    | cons y t2 =>
      rw [List.getLastD_cons]
      exact List.mem_cons_of_mem _ (ih x (by simp))

theorem splitChar_cons_ne (c y : Char) (u : List Char) (hy : ¬y = c)
    (h : List Char) (t : List (List Char)) (hs : splitChar c u = h :: t) :
    splitChar c (y :: u) = (y :: h) :: t := by
  simp only [splitChar]
  rw [if_neg (by simpa using hy), hs]

theorem splitChar_append_sep (c : Char) :
    ∀ xs : List Char, splitChar c (xs ++ [c]) = splitChar c xs ++ [[]] := by
  intro xs
  induction xs with
  | nil => simp [splitChar]
  | cons y ys ih =>
    by_cases hy : y = c
    · subst hy
      rw [List.cons_append]
      simp only [splitChar, beq_self_eq_true, if_true, ih]
      simp
    · rcases hs : splitChar c ys with _ | ⟨h, t⟩
      · exact absurd hs (splitChar_ne_nil c ys)
      · have h2 : splitChar c (y :: (ys ++ [c])) = (y :: h) :: (t ++ [[]]) := by
          have : splitChar c (ys ++ [c]) = h :: (t ++ [[]]) := by
            rw [ih, hs]
            simp
          exact splitChar_cons_ne c y _ hy _ _ this
        rw [List.cons_append, h2, splitChar_cons_ne c y ys hy h t hs]
        simp

theorem splitChar_cons_len (c y : Char) (u : List Char) (hy : ¬y = c) :
    (splitChar c (y :: u)).length = (splitChar c u).length := by
  rcases hs : splitChar c u with _ | ⟨h, t⟩
  · exact absurd hs (splitChar_ne_nil c u)
  · rw [splitChar_cons_ne c y u hy h t hs]
    simp

theorem splitChar_append_len (c x : Char) (hx : ¬x = c) :
    ∀ zs : List Char, (splitChar c (zs ++ [x])).length = (splitChar c zs).length := by
  intro zs
  induction zs with
  | nil =>
    simp only [List.nil_append, splitChar]
    rw [if_neg (by simpa using hx)]
    rfl
  | cons y ys ih =>
    by_cases hy : y = c
    · subst hy
      rw [List.cons_append]
      simp only [splitChar, beq_self_eq_true, if_true]
      simpa using ih
    · rw [List.cons_append, splitChar_cons_len c y _ hy, splitChar_cons_len c y ys hy]
      exact ih

theorem splitChar_append_last (c x : Char) (hx : ¬x = c) :
    ∀ xs : List Char,
      (splitChar c (xs ++ [x])).getLastD [] = (splitChar c xs).getLastD [] ++ [x] := by
  intro xs
  induction xs with
  | nil =>
    simp only [List.nil_append, splitChar]
    rw [if_neg (by simpa using hx)]
    rfl
  | cons y ys ih =>
    by_cases hy : y = c
    · subst hy
      rw [List.cons_append]
      simp only [splitChar, beq_self_eq_true, if_true]
      rw [getLastD_cons_ne _ _ _ (splitChar_ne_nil _ (ys ++ [x])),
        getLastD_cons_ne _ _ _ (splitChar_ne_nil _ ys)]
      exact ih
    · rw [List.cons_append]
      have hlen := splitChar_append_len c x hx ys
      rcases hs : splitChar c (ys ++ [x]) with _ | ⟨h2, t2⟩
      · exact absurd hs (splitChar_ne_nil c _)
      · rcases hs3 : splitChar c ys with _ | ⟨h3, t3⟩
        · exact absurd hs3 (splitChar_ne_nil c _)
        · rw [splitChar_cons_ne c y _ hy h2 t2 hs,
            splitChar_cons_ne c y ys hy h3 t3 hs3]
          rw [hs, hs3] at hlen
          simp only [List.length_cons, Nat.succ.injEq] at hlen
          rw [hs, hs3] at ih
          cases t2 with
          | nil =>
            cases t3 with
            | cons a3 u3 => simp at hlen
            | nil =>
              simp only [List.getLastD_cons, List.getLastD_nil] at ih ⊢
              rw [ih]
              simp
          | cons a2 u2 =>
            cases t3 with
            | nil => simp at hlen
            | cons a3 u3 =>
              rw [getLastD_cons_ne (y :: h2) [] (a2 :: u2) (by simp),
                getLastD_cons_ne (y :: h3) [] (a3 :: u3) (by simp)]
              rw [getLastD_cons_ne h2 [] (a2 :: u2) (by simp),
                getLastD_cons_ne h3 [] (a3 :: u3) (by simp)] at ih
              exact ih

theorem stripSlashes_append_slash (xs : List Char) :
    stripSlashes (xs ++ ['/']) = stripSlashes xs := by
  simp [stripSlashes, List.dropWhile]

theorem stripSlashes_append_other (x : Char) (hx : ¬x = '/') (xs : List Char) :
    stripSlashes (xs ++ [x]) = xs ++ [x] := by
  have hb : (x == '/') = false := by simpa using hx
  simp only [stripSlashes, List.reverse_append, List.reverse_singleton,
    List.singleton_append, List.dropWhile, hb]
  simp

theorem filter_getLastD_of_last (p : List Char → Bool) (hp : p [] = false) :
    ∀ L : List (List Char), L ≠ [] → p (L.getLastD []) = true →
      (L.filter p).getLastD [] = L.getLastD [] := by
  intro L
  induction L with
  | nil => intro h; exact absurd rfl h
  | cons a t ih =>
    intro _ hlast
    cases t with
    | nil =>
      simp only [List.getLastD_cons, List.getLastD_nil] at hlast ⊢
      simp [List.filter, hlast]
    | cons b t2 =>
      rw [getLastD_cons_ne _ _ _ (by simp)] at hlast
      have ihres := ih (by simp) hlast
      have hne : (b :: t2).filter p ≠ [] := by
        intro hemp
        rw [hemp] at ihres
        simp only [List.getLastD_nil] at ihres
        rw [← ihres, hp] at hlast
        exact Bool.false_ne_true hlast
      rw [getLastD_cons_ne _ _ _ (by simp), List.filter_cons]
      by_cases ha : p a = true
      · rw [if_pos ha, getLastD_cons_ne _ _ _ hne]
        exact ihres
      · rw [if_neg ha]
        exact ihres

/-- The heart of the slug derivation: splitting after stripping trailing
slashes and taking the last part equals taking the last *non-empty* part of
the unstripped split. -/
theorem splitChar_strip_last (l : List Char) :
    (splitChar '/' (stripSlashes l)).getLastD [] =
      ((splitChar '/' l).filter (fun p => !p.isEmpty)).getLastD [] := by
  induction l using List.reverseRecOn with
  | nil => rfl
  | append_singleton xs x ih =>
    by_cases hx : x = '/'
    · subst hx
      rw [stripSlashes_append_slash, splitChar_append_sep, List.filter_append]
      simp only [List.filter_cons, List.filter_nil]
      rw [ih]
      simp
    · rw [stripSlashes_append_other x hx, splitChar_append_last '/' x hx]
      have hlast := splitChar_append_last '/' x hx xs
      rw [filter_getLastD_of_last (fun p => !p.isEmpty) (by simp)
        (splitChar '/' (xs ++ [x])) (splitChar_ne_nil _ _)
        (by simp only [hlast]; simp), hlast]

/-- C7: the slug is a pure function of the URL: parse it, strip trailing
slashes from the path, and return the last non-empty path segment; fall
back to the whole URL string when parsing fails; and on
`https://site/hub/inefficiencies/idle-ec2/` it yields `idle-ec2`. -/
theorem slugFromUrl_spec :
    (∀ url, parseUrl url = none → slugFromUrl url = url)
    ∧ (∀ url u, parseUrl url = some u → pathSegments u ≠ [] →
        slugFromUrl url = String.mk ((pathSegments u).getLastD []))
    ∧ slugFromUrl "https://site/hub/inefficiencies/idle-ec2/" = "idle-ec2" := by
  refine ⟨?_, ?_, ?_⟩
  · intro url hp
    simp [slugFromUrl, hp]
  · intro url u hp _
    simp only [slugFromUrl, hp]
    rw [splitChar_strip_last]
    rfl
  · rfl

theorem slugFromUrl_spec_witness :
    parseUrl "https://site/hub/inefficiencies/idle-ec2/" =
        some { pathname := "/hub/inefficiencies/idle-ec2/" }
    ∧ pathSegments { pathname := "/hub/inefficiencies/idle-ec2/" } ≠ []
    ∧ slugFromUrl "https://site/hub/inefficiencies/idle-ec2/" =
        String.mk
          ((pathSegments { pathname := "/hub/inefficiencies/idle-ec2/" }).getLastD []) :=
  ⟨rfl, by decide,
   slugFromUrl_spec.2.1 "https://site/hub/inefficiencies/idle-ec2/"
     { pathname := "/hub/inefficiencies/idle-ec2/" } rfl (by decide)⟩

/-- When the URL parses and has a non-empty path segment, the slug is
non-empty (used for the record-invariant claim). -/
theorem slugFromUrl_ne_empty (url : String) (u : JsUrl)
    (hp : parseUrl url = some u) (hseg : pathSegments u ≠ []) :
    slugFromUrl url ≠ "" := by
  rw [slugFromUrl_spec.2.1 url u hp hseg]
  have hmem := getLastD_mem (pathSegments u) [] hseg
  have hne : (pathSegments u).getLastD [] ≠ [] := by
    intro hemp
    have := (List.mem_filter.mp hmem).2
    rw [hemp] at this
    simp at this
  intro hs
  exact hne (congrArg String.data hs)

/-! ### Batch orchestration -/

theorem batchLoop_spec (f : String → Except String Record) (p : String → Bool) :
    ∀ (urls : List String) (i : Nat) (st : BatchOutcome),
      batchLoop f p urls i st =
        { results := st.results ++ urls.filterMap (fun u => (f u).toOption),
          errors := st.errors ++ (List.enumFrom i urls).filterMap
            (fun pr =>
              match f pr.2 with
              | Except.ok _ => none
              | Except.error m =>
                some { url := pr.2, error := m, index := pr.1 + 1 }),
          warnings := st.warnings ++ urls.filter
            (fun u =>
              match f u with
              | Except.ok r => !(validateScrapedData p r).1
              | Except.error _ => false) } := by
  intro urls
  induction urls with
  | nil => intro i st; simp [batchLoop, List.enumFrom]
  | cons u rest ih =>
    intro i st
    rcases hf : f u with m | r
    · simp only [batchLoop, hf, ih, List.enumFrom, List.filterMap_cons, List.filter_cons]
      simp [List.append_assoc, Except.toOption]
    · by_cases hv : (validateScrapedData p r).1 = true
      · simp only [batchLoop, hf, hv, if_true, ih, List.enumFrom, List.filterMap_cons,
          List.filter_cons]
        simp [hv, List.append_assoc, Except.toOption]
      · simp only [Bool.not_eq_true] at hv
        simp only [batchLoop, hf, hv, Bool.false_eq_true, if_false, ih, List.enumFrom,
          List.filterMap_cons, List.filter_cons]
        simp [hv, List.append_assoc, Except.toOption]

/-- C1: batch processing has partial-failure semantics.  For every fetch
oracle and ordered URL batch, the results are exactly the successfully
fetched records in order and the error list carries exactly the failing
URLs with their messages and 1-based indices; in particular for three URLs
whose second fetch fails, two results and one error (for the second URL)
come back — a single failing URL never aborts the batch. -/
theorem batch_partial_failure (f : String → Except String Record)
    (p : String → Bool) :
    (∀ urls : List String,
      (batchProcess f p urls).results = urls.filterMap (fun u => (f u).toOption)
      ∧ (batchProcess f p urls).errors = (List.enumFrom 0 urls).filterMap
          (fun pr =>
            match f pr.2 with
            | Except.ok _ => none
            | Except.error m => some { url := pr.2, error := m, index := pr.1 + 1 }))
    ∧ (∀ u1 u2 u3 r1 r3 m, f u1 = Except.ok r1 → f u2 = Except.error m →
        f u3 = Except.ok r3 →
        (batchProcess f p [u1, u2, u3]).results.length = 2
        ∧ (batchProcess f p [u1, u2, u3]).errors.length = 1
        ∧ (batchProcess f p [u1, u2, u3]).errors.map (fun e => e.url) = [u2]) := by
  constructor
  · intro urls
    rw [batchProcess, batchLoop_spec]
    exact ⟨by simp, by simp⟩
  · intro u1 u2 u3 r1 r3 m h1 h2 h3
    rw [batchProcess, batchLoop_spec]
    refine ⟨?_, ?_, ?_⟩ <;>
      simp [List.enumFrom, List.filterMap_cons, h1, h2, h3, Except.toOption]

theorem batch_partial_failure_witness :
    sampleFetch "https://hub.pointfive.co/inefficiencies/a" = Except.ok sampleRecord
    ∧ sampleFetch "https://hub.pointfive.co/inefficiencies/b" =
        Except.error "Fetch timeout after 8000ms"
    ∧ sampleFetch "https://hub.pointfive.co/inefficiencies/c" = Except.ok sampleRecord
    ∧ ((batchProcess sampleFetch (fun _ => true)
          ["https://hub.pointfive.co/inefficiencies/a",
           "https://hub.pointfive.co/inefficiencies/b",
           "https://hub.pointfive.co/inefficiencies/c"]).results.length = 2
      ∧ (batchProcess sampleFetch (fun _ => true)
          ["https://hub.pointfive.co/inefficiencies/a",
           "https://hub.pointfive.co/inefficiencies/b",
           "https://hub.pointfive.co/inefficiencies/c"]).errors.length = 1
      ∧ (batchProcess sampleFetch (fun _ => true)
          ["https://hub.pointfive.co/inefficiencies/a",
           "https://hub.pointfive.co/inefficiencies/b",
           "https://hub.pointfive.co/inefficiencies/c"]).errors.map
            (fun e => e.url) = ["https://hub.pointfive.co/inefficiencies/b"]) :=
  ⟨rfl, rfl, rfl,
   (batch_partial_failure sampleFetch (fun _ => true)).2
     "https://hub.pointfive.co/inefficiencies/a"
     "https://hub.pointfive.co/inefficiencies/b"
     "https://hub.pointfive.co/inefficiencies/c"
     sampleRecord sampleRecord "Fetch timeout after 8000ms" rfl rfl rfl⟩

/-! ### Validator -/

theorem enumFrom_forall_snd {α : Type} (P : α → Prop) :
    ∀ (l : List α) (i : Nat), (∀ pr ∈ List.enumFrom i l, P pr.2) ↔ (∀ x ∈ l, P x) := by
  intro l
  induction l with
  | nil => intro i; simp [List.enumFrom]
  | cons a t ih =>
    intro i
    simp only [List.enumFrom, List.mem_cons, forall_eq_or_imp]
    rw [ih (i + 1)]

theorem falsy_err_iff (o : Option String) (msg : String) :
    ¬((if optFalsy o then [msg] else []) = []) ↔ (o = none ∨ o = some "") := by
  cases o with
  | none => simp [optFalsy]
  | some s =>
    by_cases hs : s = ""
    · subst hs
      simp [optFalsy]
    · simp [optFalsy, hs]

theorem source_err_iff (o : Option String) (msg : String) :
    ¬((match o with
       | none => []
       | some u => if u != "" && !strStartsWith u "http" then [msg] else []) = [])
    ↔ (∃ u, o = some u ∧ u ≠ "" ∧ strStartsWith u "http" = false) := by
  cases o with
  | none => simp
  | some u =>
    dsimp only
    by_cases hc : (u != "" && !strStartsWith u "http") = true
    · rw [if_pos hc]
      simp only [Bool.and_eq_true, bne_iff_ne, Bool.not_eq_true'] at hc
      simp [hc.1, hc.2]
    · rw [if_neg hc]
      simp only [Bool.and_eq_true, bne_iff_ne, Bool.not_eq_true', not_and_or,
        not_not] at hc
      simp only [not_true_eq_false, false_iff, not_exists, not_and,
        Option.some.injEq]
      rintro x rfl hne hstart
      rcases hc with hc | hc
      · exact hne hc
      · exact hc hstart

theorem links_err_iff (dl : List LinkEntry) :
    ¬((dl.enum).filterMap
        (fun pr =>
          if pr.2.url != "" && !strStartsWith pr.2.url "http" then
            some ("Invalid documentation link URL at index " ++ toString pr.1)
          else none) = [])
    ↔ ∃ l ∈ dl, l.url ≠ "" ∧ strStartsWith l.url "http" = false := by
  rw [List.filterMap_eq_nil_iff]
  have h1 : ∀ pr : Nat × LinkEntry,
      ((if pr.2.url != "" && !strStartsWith pr.2.url "http" then
          some ("Invalid documentation link URL at index " ++ toString pr.1)
        else none) = none)
      ↔ ¬(pr.2.url ≠ "" ∧ strStartsWith pr.2.url "http" = false) := by
    intro pr
    by_cases hc : (pr.2.url != "" && !strStartsWith pr.2.url "http") = true
    · rw [if_pos hc]
      simp only [Bool.and_eq_true, bne_iff_ne, Bool.not_eq_true'] at hc
      simp [hc.1, hc.2]
    · rw [if_neg hc]
      simp only [Bool.and_eq_true, bne_iff_ne, Bool.not_eq_true', not_and_or,
        not_not] at hc
      simp only [true_iff]
      rintro ⟨hne, hstart⟩
      rcases hc with hc | hc
      · exact hne hc
      · exact hc hstart
  simp only [h1]
  rw [List.enum, enumFrom_forall_snd (fun l => ¬(l.url ≠ "" ∧
    strStartsWith l.url "http" = false)) dl 0]
  push_neg
  rfl

theorem ts_err_iff (o : Option String) (parses : String → Bool) :
    ¬((match o with
       | none => ["Missing or invalid scraped_at timestamp"]
       | some s =>
         if s == "" || !parses s then ["Missing or invalid scraped_at timestamp"]
         else []) = [])
    ↔ (o = none ∨ o = some "" ∨ (∃ s, o = some s ∧ s ≠ "" ∧ parses s = false)) := by
  cases o with
  | none => simp
  | some s =>
    dsimp only
    by_cases hc : (s == "" || !parses s) = true
    · rw [if_pos hc]
      simp only [Bool.or_eq_true, beq_iff_eq, Bool.not_eq_true'] at hc
      rcases hc with hc | hc
      · subst hc
        simp
      · by_cases hs : s = ""
        · subst hs
          simp
        · simp [hs, hc]
    · rw [if_neg hc]
      simp only [Bool.or_eq_true, beq_iff_eq, Bool.not_eq_true', not_or] at hc
      obtain ⟨hs, hp⟩ := hc
      simp only [not_true_eq_false, false_iff, not_or, not_exists, not_and]
      refine ⟨by simp, by simp [hs], ?_⟩
      rintro x hx hne hpx
      rw [Option.some.injEq] at hx
      subst hx
      exact hp hpx

/-- C8 (amended: the validator also flags an *empty* id, title, or
timestamp, and skips *empty* source/link URLs): a record is flagged invalid
precisely when id is missing or empty, title is missing or empty, a
non-empty source URL does not start with "http", some non-empty
documentation-link URL does not start with "http", or the timestamp is
missing, empty, or fails to parse; and a record that fails validation is
still pushed to the batch results, with its URL recorded in the warning
log — never dropped. -/
theorem validateScrapedData_spec (parses : String → Bool) :
    (∀ d : Record,
      ((validateScrapedData parses d).1 = false ↔
        ((d.id = none ∨ d.id = some "")
         ∨ (d.title = none ∨ d.title = some "")
         ∨ (∃ u, d.source.url = some u ∧ u ≠ "" ∧ strStartsWith u "http" = false)
         ∨ (∃ l ∈ d.documentation_links, l.url ≠ "" ∧ strStartsWith l.url "http" = false)
         ∨ (d.scraped_at = none ∨ d.scraped_at = some ""
            ∨ (∃ s, d.scraped_at = some s ∧ s ≠ "" ∧ parses s = false)))))
    ∧ (∀ (f : String → Except String Record) (urls : List String) (u : String)
        (r : Record), u ∈ urls → f u = Except.ok r →
        r ∈ (batchProcess f parses urls).results
        ∧ ((validateScrapedData parses r).1 = false →
            u ∈ (batchProcess f parses urls).warnings)) := by
  constructor
  · intro d
    simp only [validateScrapedData]
    rw [Bool.eq_false_iff, Ne, List.isEmpty_iff]
    simp only [List.append_eq_nil, not_and_or]
    rw [falsy_err_iff d.id, falsy_err_iff d.title, source_err_iff d.source.url,
      links_err_iff d.documentation_links, ts_err_iff d.scraped_at parses]
    simp only [or_assoc]
  · intro f urls u r hu hf
    rw [batchProcess, batchLoop_spec]
    constructor
    · simp only [List.nil_append]
      exact List.mem_filterMap.mpr ⟨u, hu, by simp [hf, Except.toOption]⟩
    · intro hv
      simp only [List.nil_append]
      refine List.mem_filter.mpr ⟨hu, ?_⟩
      simp [hf, hv]

/-- C8 counterexample: the validator flags this record invalid although its
id (and everything else the claim lists) satisfies the claim's conditions —
`id` is present and a string, `title` is present and a string, the source
URL is absolute, there are no documentation links, and the timestamp parses
(the oracle accepts every string). -/
theorem validateScrapedData_cex :
    (validateScrapedData (fun _ => true) validatorCexRecord).1 = false
    ∧ validatorCexRecord.id = some ""
    ∧ validatorCexRecord.title = some "Idle EC2"
    ∧ validatorCexRecord.source.url =
        some "https://hub.pointfive.co/inefficiencies/idle-ec2"
    ∧ strStartsWith "https://hub.pointfive.co/inefficiencies/idle-ec2" "http" = true
    ∧ validatorCexRecord.documentation_links = []
    ∧ validatorCexRecord.scraped_at = some "2024-01-01T00:00:00.000Z" :=
  ⟨rfl, rfl, rfl, rfl, rfl, rfl, rfl⟩

theorem validateScrapedData_spec_witness :
    validatorCexRecord ∈
      (batchProcess (fun _ => Except.ok validatorCexRecord) (fun _ => true)
        ["https://hub.pointfive.co/inefficiencies/a"]).results
    ∧ "https://hub.pointfive.co/inefficiencies/a" ∈
      (batchProcess (fun _ => Except.ok validatorCexRecord) (fun _ => true)
        ["https://hub.pointfive.co/inefficiencies/a"]).warnings :=
  have h := (validateScrapedData_spec (fun _ => true)).2
    (fun _ => Except.ok validatorCexRecord)
    ["https://hub.pointfive.co/inefficiencies/a"]
    "https://hub.pointfive.co/inefficiencies/a" validatorCexRecord
    (List.mem_cons_self _ _) rfl
  ⟨h.1, h.2 rfl⟩

/-! ### Record assembler invariants -/

/-- C9 (amended: the id is non-empty *whenever the source URL's path has a
non-empty segment*; for degenerate URLs such as `https://site/` the slug
degrades to the empty string): every assembled record carries
`id = slug(url)`, stamps `scraped_at` with the extraction timestamp, its
detection signals, remediation actions, documentation links and tags are
present lists (the extractor outputs; empty is the missing state), tags is
always empty at extraction time, and `source` is the input URL with the
constant origin. -/
theorem parseInefficiencyDetail_invariants (url : String) (doc : Node) (now : String) :
    (parseInefficiencyDetail url doc now).id = some (slugFromUrl url)
    ∧ ((∃ u, parseUrl url = some u ∧ pathSegments u ≠ []) →
        ∃ s, (parseInefficiencyDetail url doc now).id = some s ∧ s ≠ "")
    ∧ (parseInefficiencyDetail url doc now).scraped_at = some now
    ∧ (parseInefficiencyDetail url doc now).detection_signals =
        extractSectionList doc "Detection"
    ∧ (parseInefficiencyDetail url doc now).remediation_actions =
        extractSectionList doc "Remediation"
    ∧ (parseInefficiencyDetail url doc now).documentation_links =
        extractDocumentationLinks doc
    ∧ (parseInefficiencyDetail url doc now).tags = []
    ∧ (parseInefficiencyDetail url doc now).source.origin =
        "pointfive_cloud_efficiency_hub"
    ∧ (parseInefficiencyDetail url doc now).source.url = some url := by
  refine ⟨rfl, ?_, rfl, rfl, rfl, rfl, rfl, rfl, rfl⟩
  rintro ⟨u, hp, hseg⟩
  exact ⟨slugFromUrl url, rfl, slugFromUrl_ne_empty url u hp hseg⟩

theorem parseInefficiencyDetail_invariants_witness :
    (∃ u, parseUrl "https://site/hub/inefficiencies/idle-ec2/" = some u
      ∧ pathSegments u ≠ [])
    ∧ (∃ s, (parseInefficiencyDetail "https://site/hub/inefficiencies/idle-ec2/"
        (Node.text "x") "2024-01-01T00:00:00.000Z").id = some s ∧ s ≠ "") :=
  ⟨⟨{ pathname := "/hub/inefficiencies/idle-ec2/" }, rfl, by decide⟩,
   (parseInefficiencyDetail_invariants "https://site/hub/inefficiencies/idle-ec2/"
      (Node.text "x") "2024-01-01T00:00:00.000Z").2.1
     ⟨{ pathname := "/hub/inefficiencies/idle-ec2/" }, rfl, by decide⟩⟩

/-- C9 counterexample: for the URL `https://site/` (whose path has no
non-empty segment) the assembler produces `id = some ""` — the id is *not*
a non-empty string, against the unconditional claim. -/
theorem parseInefficiencyDetail_empty_id_cex :
    (parseInefficiencyDetail "https://site/" (Node.text "x")
      "2024-01-01T00:00:00.000Z").id = some "" := rfl

/-! ### URL discovery -/

theorem mem_setAdd (s : List String) (y x : String) :
    x ∈ setAdd s y ↔ x ∈ s ∨ x = y := by
  unfold setAdd
  by_cases h : y ∈ s
  · rw [if_pos h]
    constructor
    · exact Or.inl
    · rintro (hx | rfl)
      · exact hx
      · exact h
  · rw [if_neg h]
    simp

theorem mem_addAll : ∀ (l s : List String) (x : String),
    x ∈ addAll s l ↔ x ∈ s ∨ x ∈ l := by
  intro l
  induction l with
  | nil => intro s x; simp [addAll]
  | cons a t ih =>
    intro s x
    simp only [addAll, List.foldl_cons] at ih ⊢
    rw [ih (setAdd s a) x, mem_setAdd]
    simp only [List.mem_cons]
    tauto

theorem nodup_setAdd (s : List String) (y : String) (h : s.Nodup) :
    (setAdd s y).Nodup := by
  unfold setAdd
  by_cases hm : y ∈ s
  · rwa [if_pos hm]
  · rw [if_neg hm]
    refine List.nodup_append.mpr ⟨h, List.nodup_singleton _, ?_⟩
    intro x hx hx2
    rw [List.mem_singleton] at hx2
    exact hm (hx2 ▸ hx)

theorem nodup_addAll : ∀ (l s : List String), s.Nodup → (addAll s l).Nodup := by
  intro l
  induction l with
  | nil => intro s h; exact h
  | cons a t ih =>
    intro s h
    exact ih (setAdd s a) (nodup_setAdd s a h)

theorem discoverLoop_eq (pages : Nat → List String) (N : Nat)
    (hne : ∀ q, 1 ≤ q → q ≤ N → pageFound pages q ≠ [])
    (hend : pageFound pages (N + 1) = []) :
    ∀ (fuel p : Nat) (acc : List String), 1 ≤ p → p ≤ N + 1 → N + 2 ≤ p + fuel →
      discoverLoop pages p fuel acc = addAll acc (foundRange pages p (N + 1 - p)) := by
  intro fuel
  induction fuel with
  | zero => intro p acc h1 h2 h3; omega
  | succ fuel ih =>
    intro p acc h1 h2 h3
    by_cases hp : p = N + 1
    · subst hp
      have hemp : pageFound pages (N + 1) = [] := hend
      simp only [discoverLoop, hemp]
      have : N + 1 - (N + 1) = 0 := by omega
      rw [this]
      simp [foundRange, addAll, List.isEmpty_iff]
    · have hpN : p ≤ N := by omega
      have hfound : pageFound pages p ≠ [] := hne p h1 hpN
      simp only [discoverLoop]
      rw [if_neg (by simpa [List.isEmpty_iff] using hfound)]
      rw [ih (p + 1) (addAll acc (pageFound pages p)) (by omega) (by omega) (by omega)]
      have hk : N + 1 - p = (N - p) + 1 := by omega
      rw [hk]
      simp only [foundRange]
      have hk2 : N + 1 - (p + 1) = N - p := by omega
      rw [← hk2]
      simp [addAll, List.foldl_append]

theorem sortStr_eq_of_mem_iff (l1 l2 : List String) (h1 : l1.Nodup) (h2 : l2.Nodup)
    (hm : ∀ x, x ∈ l1 ↔ x ∈ l2) :
    List.insertionSort StrOrd l1 = List.insertionSort StrOrd l2 := by
  refine List.eq_of_perm_of_sorted ?_ (List.sorted_insertionSort StrOrd l1)
    (List.sorted_insertionSort StrOrd l2)
  exact (List.perm_insertionSort StrOrd l1).trans
    (((List.perm_ext_iff_of_nodup h1 h2).mpr hm).trans
      (List.perm_insertionSort StrOrd l2).symm)

theorem pageFound_perm (pages pages' : Nat → List String)
    (hperm : ∀ q, List.Perm (pages' q) (pages q)) (q : Nat) :
    List.Perm (pageFound pages' q) (pageFound pages q) :=
  ((hperm q).filter _).map _

theorem foundRange_perm (pages pages' : Nat → List String)
    (hperm : ∀ q, List.Perm (pages' q) (pages q)) :
    ∀ (k p : Nat), List.Perm (foundRange pages' p k) (foundRange pages p k) := by
  intro k
  induction k with
  | zero => intro p; simp [foundRange]
  | succ k ih =>
    intro p
    simp only [foundRange]
    exact (pageFound_perm pages pages' hperm p).append (ih (p + 1))

/-- C2: URL discovery is order-insensitive and deterministic.  If index
pages `1..N` each yield a non-empty set of matching links and page `N + 1`
yields none (with `N` under the page cap), the discovered sequence is the
lexicographic sort of the de-duplicated union of the links extracted from
pages `1..N`; and any per-page permutation of the anchor lists produces the
identical sequence. -/
theorem discovery_sorted_dedup (pages pages' : Nat → List String) (N : Nat)
    (hcap : N < MAX_PAGES)
    (hne : ∀ q, 1 ≤ q → q ≤ N → pageFound pages q ≠ [])
    (hend : pageFound pages (N + 1) = [])
    (hperm : ∀ q, List.Perm (pages' q) (pages q)) :
    discoverSorted pages = List.insertionSort StrOrd (foundRange pages 1 N).dedup
    ∧ discoverSorted pages' = discoverSorted pages := by
  have hN1 : N + 1 - 1 = N := by omega
  have hcap30 : N < 30 := hcap
  have hloop : discoverLoop pages 1 MAX_PAGES [] = addAll [] (foundRange pages 1 N) := by
    rw [discoverLoop_eq pages N hne hend MAX_PAGES 1 [] (by omega) (by omega)
      (by simp only [MAX_PAGES]; omega), hN1]
  have hne' : ∀ q, 1 ≤ q → q ≤ N → pageFound pages' q ≠ [] := by
    intro q hq1 hq2 hemp
    have hp := pageFound_perm pages pages' hperm q
    rw [hemp] at hp
    exact hne q hq1 hq2 hp.nil_eq.symm
  have hend' : pageFound pages' (N + 1) = [] := by
    have hp := pageFound_perm pages pages' hperm (N + 1)
    rw [hend] at hp
    exact hp.eq_nil
  have hloop' : discoverLoop pages' 1 MAX_PAGES [] =
      addAll [] (foundRange pages' 1 N) := by
    rw [discoverLoop_eq pages' N hne' hend' MAX_PAGES 1 [] (by omega) (by omega)
      (by simp only [MAX_PAGES]; omega), hN1]
  constructor
  · rw [discoverSorted, hloop]
    refine sortStr_eq_of_mem_iff _ _ (nodup_addAll _ [] (List.nodup_nil))
      (List.nodup_dedup _) ?_
    intro x
    rw [mem_addAll, List.mem_dedup]
    simp
  · rw [discoverSorted, discoverSorted, hloop, hloop']
    refine sortStr_eq_of_mem_iff _ _ (nodup_addAll _ [] (List.nodup_nil))
      (nodup_addAll _ [] (List.nodup_nil)) ?_
    intro x
    rw [mem_addAll, mem_addAll]
    simp only [List.not_mem_nil, false_or]
    exact (foundRange_perm pages pages' hperm N 1).mem_iff

theorem discovery_sorted_dedup_witness :
    (1 < MAX_PAGES
     ∧ (∀ q, 1 ≤ q → q ≤ 1 → pageFound wPages q ≠ [])
     ∧ pageFound wPages (1 + 1) = []
     ∧ (∀ q, List.Perm (wPages2 q) (wPages q)))
    ∧ (discoverSorted wPages =
        List.insertionSort StrOrd (foundRange wPages 1 1).dedup
       ∧ discoverSorted wPages2 = discoverSorted wPages) := by
  have hne : ∀ q, 1 ≤ q → q ≤ 1 → pageFound wPages q ≠ [] := by
    intro q h1 h2
    have hq : q = 1 := Nat.le_antisymm h2 h1
    subst hq
    decide
  have hperm : ∀ q, List.Perm (wPages2 q) (wPages q) := by
    intro q
    by_cases h : q = 1
    · subst h
      exact List.Perm.swap _ _ _
    · simp only [wPages, wPages2, if_neg h]
      exact List.Perm.refl []
  exact ⟨⟨by decide, hne, rfl, hperm⟩,
    discovery_sorted_dedup wPages wPages2 1 (by decide) hne rfl hperm⟩

/-- C10: when the batch entry point is called without a `limit` query
parameter the limit defaults to 5, so exactly the first five URLs of the
sorted discovery output are processed — never the whole discovery list. -/
theorem batch_default_limit (pages : Nat → List String) :
    batchUrls pages none = (discoverSorted pages).take 5
    ∧ (batchUrls pages none).length ≤ 5 := by
  have h : batchUrls pages none = (discoverSorted pages).take 5 := rfl
  refine ⟨h, ?_⟩
  rw [h, List.length_take]
  omega
